import Mathlib

/-!
Verification of the `anno` hexdump utility: a shallow embedding of its
type-specification compiler (src/main.rs, src/types.rs) and of its
annotation renderer (src/main.rs `Hexdump`, src/display.rs), with theorems
settling the specification claims.

Bytes are modelled as natural numbers below 256, buffers as `List Nat`,
and fallible Rust functions (`anyhow::Result`) as `Except String`.
-/

namespace Anno

/-- Byte order for multi-byte types (src/types.rs `ByteOrder`). -/
inductive ByteOrder where
  | Little
  | Big
deriving DecidableEq

/-- Supported data types (src/types.rs `DataType`). -/
inductive DataType where
  | U8 | U16 | U32 | U64
  | I8 | I16 | I32 | I64
  | F32 | F64
deriving DecidableEq

/-- Rust `str::to_lowercase`, restricted to ASCII as all tokens the program
compares against are ASCII (`Char.toLower` lowercases exactly A–Z). Written
over the character list so that it reduces definitionally. -/
def strToLower (s : String) : String :=
  String.mk (s.data.map Char.toLower)

/-- src/types.rs `ByteOrder::from_str`. -/
def ByteOrder.fromStr (s : String) : Except String ByteOrder :=
  match strToLower s with
  | "little" | "le" => .ok .Little
  | "big" | "be" => .ok .Big
  | _ => .error ("Invalid byte order: " ++ s ++ ". Use \'little\' or \'big\'")

/-- src/types.rs `DataType::from_str`. -/
def DataType.fromStr (s : String) : Except String DataType :=
  match strToLower s with
  | "u8" => .ok .U8
  | "u16" => .ok .U16
  | "u32" => .ok .U32
  | "u64" => .ok .U64
  | "i8" => .ok .I8
  | "i16" => .ok .I16
  | "i32" => .ok .I32
  | "i64" => .ok .I64
  | "f32" | "float" => .ok .F32
  | "f64" | "double" => .ok .F64
  | _ => .error ("Unknown type: " ++ s)

/-- src/types.rs `DataType::size`: fixed width in bytes. -/
def DataType.size : DataType → Nat
  | .U8 | .I8 => 1
  | .U16 | .I16 => 2
  | .U32 | .I32 | .F32 => 4
  | .U64 | .I64 | .F64 => 8

/-- src/types.rs `DataType::name`. -/
def DataType.name : DataType → String
  | .U8 => "u8"
  | .U16 => "u16"
  | .U32 => "u32"
  | .U64 => "u64"
  | .I8 => "i8"
  | .I16 => "i16"
  | .I32 => "i32"
  | .I64 => "i64"
  | .F32 => "f32"
  | .F64 => "f64"

/-- Value of a little-endian byte list (Rust `uN::from_le_bytes`): the head is
the least significant byte. -/
def leNat : List Nat → Nat
  | [] => 0
  | b :: bs => b + 256 * leNat bs

/-- Value of a big-endian byte list (Rust `uN::from_be_bytes`). -/
def beNat (bs : List Nat) : Nat := leNat bs.reverse

/-- Two's-complement reading of an unsigned value of `bits` bits
(Rust `iN::from_le_bytes` composed with the unsigned recomposition). -/
def sintOf (bits : Nat) (n : Nat) : Int :=
  if n < 2 ^ (bits - 1) then (n : Int) else (n : Int) - 2 ^ bits

/-- Modelled abstractly: the text Rust produces for an IEEE-754 float with
`\x7b:.6\x7d` formatting. The claims under verification never inspect float
text, so the rendering is kept as an unspecified but pure and deterministic
function of the raw bits and width; only its purity matters here. -/
def floatText (bits : Nat) (raw : Nat) : String :=
  "f" ++ toString bits ++ "#" ++ toString raw

/-- src/types.rs `DataType::decode`: decode a value from bytes and return it
as text. Indexing `bytes[i]` is modelled by `List.getD` (total, guarded by
the length check exactly as in the source). -/
def DataType.decode (t : DataType) (bytes : List Nat) (bo : ByteOrder) : Except String String :=
  if bytes.length < t.size then
    .error ("Not enough bytes: need " ++ toString t.size ++ ", got " ++ toString bytes.length)
  else
    .ok (match t, bo with
      | .U8, _ => toString (bytes.getD 0 0)
      | .I8, _ => toString (sintOf 8 (bytes.getD 0 0))
      | .U16, .Little => toString (leNat [bytes.getD 0 0, bytes.getD 1 0])
      | .U16, .Big => toString (beNat [bytes.getD 0 0, bytes.getD 1 0])
      | .I16, .Little => toString (sintOf 16 (leNat [bytes.getD 0 0, bytes.getD 1 0]))
      | .I16, .Big => toString (sintOf 16 (beNat [bytes.getD 0 0, bytes.getD 1 0]))
      | .U32, .Little =>
          toString (leNat [bytes.getD 0 0, bytes.getD 1 0, bytes.getD 2 0, bytes.getD 3 0])
      | .U32, .Big =>
          toString (beNat [bytes.getD 0 0, bytes.getD 1 0, bytes.getD 2 0, bytes.getD 3 0])
      | .I32, .Little =>
          toString (sintOf 32 (leNat [bytes.getD 0 0, bytes.getD 1 0, bytes.getD 2 0, bytes.getD 3 0]))
      | .I32, .Big =>
          toString (sintOf 32 (beNat [bytes.getD 0 0, bytes.getD 1 0, bytes.getD 2 0, bytes.getD 3 0]))
      | .U64, .Little =>
          toString (leNat [bytes.getD 0 0, bytes.getD 1 0, bytes.getD 2 0, bytes.getD 3 0,
            bytes.getD 4 0, bytes.getD 5 0, bytes.getD 6 0, bytes.getD 7 0])
      | .U64, .Big =>
          toString (beNat [bytes.getD 0 0, bytes.getD 1 0, bytes.getD 2 0, bytes.getD 3 0,
            bytes.getD 4 0, bytes.getD 5 0, bytes.getD 6 0, bytes.getD 7 0])
      | .I64, .Little =>
          toString (sintOf 64 (leNat [bytes.getD 0 0, bytes.getD 1 0, bytes.getD 2 0, bytes.getD 3 0,
            bytes.getD 4 0, bytes.getD 5 0, bytes.getD 6 0, bytes.getD 7 0]))
      | .I64, .Big =>
          toString (sintOf 64 (beNat [bytes.getD 0 0, bytes.getD 1 0, bytes.getD 2 0, bytes.getD 3 0,
            bytes.getD 4 0, bytes.getD 5 0, bytes.getD 6 0, bytes.getD 7 0]))
      | .F32, .Little =>
          floatText 32 (leNat [bytes.getD 0 0, bytes.getD 1 0, bytes.getD 2 0, bytes.getD 3 0])
      | .F32, .Big =>
          floatText 32 (beNat [bytes.getD 0 0, bytes.getD 1 0, bytes.getD 2 0, bytes.getD 3 0])
      | .F64, .Little =>
          floatText 64 (leNat [bytes.getD 0 0, bytes.getD 1 0, bytes.getD 2 0, bytes.getD 3 0,
            bytes.getD 4 0, bytes.getD 5 0, bytes.getD 6 0, bytes.getD 7 0])
      | .F64, .Big =>
          floatText 64 (beNat [bytes.getD 0 0, bytes.getD 1 0, bytes.getD 2 0, bytes.getD 3 0,
            bytes.getD 4 0, bytes.getD 5 0, bytes.getD 6 0, bytes.getD 7 0]))

/-- Annotation kind (src/display.rs `AnnotationKind`): determines rendering
style. The `Annotation` struct of src/main.rs has no kind field; the one of
src/display.rs carries it, and the embedding keeps it (rendering geometry
below never reads it, exactly as in src/main.rs). -/
inductive AnnotationKind where
  | Normal
  | Error
deriving DecidableEq

/-- An annotation for a range of bytes (src/main.rs and src/display.rs
`Annotation`). -/
structure Annotation where
  offset : Nat
  length : Nat
  label : String
  kind : AnnotationKind
deriving DecidableEq

/-- src/display.rs `Annotation::new` (and src/main.rs `Annotation::new`,
which has no kind): a Normal-kind annotation. -/
def Annotation.new (offset length : Nat) (label : String) : Annotation :=
  ⟨offset, length, label, .Normal⟩

/-- src/display.rs `Annotation::error`: an Error-kind annotation. -/
def Annotation.mkError (offset length : Nat) (label : String) : Annotation :=
  ⟨offset, length, label, .Error⟩

/-- A type specification with optional field name (src/main.rs `TypeSpec`). -/
structure TypeSpec where
  dataType : DataType
  fieldName : Option String
deriving DecidableEq

/-- Split a character list at the first colon (Rust `s.find(colon)` plus the
two slices around it), returning the parts before and after it. -/
def splitAtColon : List Char → Option (List Char × List Char)
  | [] => none
  | c :: cs =>
    if c = ':' then some ([], cs)
    else match splitAtColon cs with
      | some (a, b) => some (c :: a, b)
      | none => none

/-- src/main.rs `TypeSpec::from_str`: parse "type" or "type:fieldname". -/
def TypeSpec.fromStr (s : String) : Except String TypeSpec :=
  match splitAtColon s.data with
  | some (typePart, fieldPart) =>
    if fieldPart = [] then
      .error ("Field name cannot be empty in \'" ++ s ++ "\'")
    else
      match DataType.fromStr (String.mk typePart) with
      | .ok dt => .ok ⟨dt, some (String.mk fieldPart)⟩
      | .error e => .error e
  | none =>
    match DataType.fromStr s with
    | .ok dt => .ok ⟨dt, none⟩
    | .error e => .error e

/-- src/main.rs `TypeSpec::display_name`: the field name if provided,
otherwise the type name. -/
def TypeSpec.displayName (t : TypeSpec) : String :=
  t.fieldName.getD t.dataType.name

/-- src/main.rs `build_annotations_from_types`, generalized over the running
cursor (the source starts the loop at `offset = 0` and pushes annotations in
order; the push loop is rendered as structural recursion returning the list
in the same order). -/
def buildAux (typeSpecs : List String) (bo : ByteOrder) (data : List Nat)
    (offset : Nat) : Except String (List Annotation) :=
  match typeSpecs with
  | [] => .ok []
  | sStr :: rest =>
    match TypeSpec.fromStr sStr with
    | .error e => .error e
    | .ok spec =>
      let size := spec.dataType.size
      if offset + size > data.length then
        .error ("Not enough data: type " ++ spec.dataType.name ++ " at offset "
          ++ toString offset ++ " needs " ++ toString size
          ++ " bytes, but only " ++ toString (data.length - offset) ++ " bytes available")
      else
        match spec.dataType.decode ((data.drop offset).take size) bo with
        | .error e => .error e
        | .ok value =>
          let ann := Annotation.new offset size (spec.displayName ++ ": " ++ value)
          match buildAux rest bo data (offset + size) with
          | .error e => .error e
          | .ok anns => .ok (ann :: anns)

/-- src/main.rs `build_annotations_from_types` with its initial cursor 0. -/
def buildAnnotationsFromTypes (typeSpecs : List String) (bo : ByteOrder)
    (data : List Nat) : Except String (List Annotation) :=
  buildAux typeSpecs bo data 0

/-- The little-endian byte encoding of a `w`-byte unsigned value (Rust
`uN::to_le_bytes`): least significant byte first. -/
def encodeNatLE : Nat → Nat → List Nat
  | 0, _ => []
  | w + 1, v => (v % 256) :: encodeNatLE w (v / 256)

/-- The unsigned `bits`-bit two's-complement representative of an integer
(the raw bit pattern shared by Rust's `uN` and `iN` of that width). -/
def twosComplement (bits : Nat) (v : Int) : Nat :=
  (v % ((2 : Int) ^ bits)).toNat

/-- The native byte encoding of an integer value under a byte order (Rust
`to_le_bytes` / `to_be_bytes` on the value's own type). -/
def encodeBytes (t : DataType) (bo : ByteOrder) (v : Int) : List Nat :=
  match bo with
  | .Little => encodeNatLE t.size (twosComplement (8 * t.size) v)
  | .Big => (encodeNatLE t.size (twosComplement (8 * t.size) v)).reverse

/-- The eight integer data types (all of `DataType` except the floats). -/
def isIntegerType : DataType → Bool
  | .F32 | .F64 => false
  | _ => true

/-- The signed integer data types. -/
def isSignedType : DataType → Bool
  | .I8 | .I16 | .I32 | .I64 => true
  | _ => false

/-- The value range of an integer data type: the interval of the Rust type
the bytes are decoded as. -/
def valueInRange (t : DataType) (v : Int) : Prop :=
  if isSignedType t then
    -((2 : Int) ^ (8 * t.size - 1)) ≤ v ∧ v < (2 : Int) ^ (8 * t.size - 1)
  else 0 ≤ v ∧ v < (2 : Int) ^ (8 * t.size)

/-- Whether a byte offset falls inside an annotation's half-open range
(the predicate shared by src/main.rs `Hexdump::is_byte_annotated` and
src/display.rs `Hexdump::get_byte_annotation_kind`). -/
def inAnnRange (a : Annotation) (offset : Nat) : Bool :=
  decide (a.offset ≤ offset ∧ offset < a.offset + a.length)

/-- src/main.rs `Hexdump::is_byte_annotated`. -/
def isByteAnnotated (anns : List Annotation) (offset : Nat) : Bool :=
  anns.any (fun a => inAnnRange a offset)

/-- src/display.rs `Hexdump::get_byte_annotation_kind`: the kind of the first
annotation in the list whose range holds the byte (`iter().find`). -/
def getByteAnnotationKind (anns : List Annotation) (offset : Nat) : Option AnnotationKind :=
  (anns.find? (fun a => inAnnRange a offset)).map Annotation.kind

/-- The row-overlap filter of `Hexdump::dump` (src/main.rs): an annotation is
rendered under the row `[rowStart, rowEnd)` iff
`a.offset < rowEnd && a.offset + a.length > rowStart`. -/
def overlapsRow (a : Annotation) (rowStart rowEnd : Nat) : Bool :=
  decide (a.offset < rowEnd ∧ rowStart < a.offset + a.length)

/-- Stable insertion of an annotation into a list sorted by offset: placed
before the first element with an offset not smaller than its own. -/
def insertByOffset (a : Annotation) : List Annotation → List Annotation
  | [] => [a]
  | b :: rest => if a.offset ≤ b.offset then a :: b :: rest else b :: insertByOffset a rest

/-- Stable sort by annotation offset. Rust `slice::sort_by_key` is a stable
sort; any stable sort yields the same list, so it is modelled by stable
insertion sort. -/
def sortByOffset : List Annotation → List Annotation
  | [] => []
  | a :: rest => insertByOffset a (sortByOffset rest)

/-- The annotations `Hexdump::dump` renders under the row `[rowStart, rowEnd)`,
in the order their underline rows are emitted: the overlap filter followed by
the stable sort by offset (src/main.rs lines 146–164). -/
def lineAnnotations (anns : List Annotation) (rowStart rowEnd : Nat) : List Annotation :=
  sortByOffset (anns.filter (fun a => overlapsRow a rowStart rowEnd))

/-- Accumulator of the underline loop in `Hexdump::print_annotation`
(src/main.rs lines 196–275): the string built so far plus the two mutable
flags of the loop. -/
structure UnderlineState where
  underline : String
  inAnn : Bool
  justStarted : Bool

/-- One iteration of the 16-position underline loop of
`Hexdump::print_annotation` (src/main.rs). Rust computes `end_in_line - 1`
in `usize`; for `end_in_line = 0` that wraps far above 15, so the comparison
`i == end_in_line - 1` is rendered wrap-faithfully as `i + 1 == endIn`. -/
def underlineStep (startIn endIn : Nat) (cfp ctn : Bool) (st : UnderlineState)
    (i : Nat) : UnderlineState :=
  let st1 : UnderlineState :=
    if i = startIn then
      let cell :=
        if i + 1 = endIn then
          if cfp then "───" else if ctn then "└──" else "└──"
        else
          if cfp then "───" else "└──"
      ⟨st.underline ++ cell, true, true⟩
    else if i = endIn then
      ⟨st.underline ++ (if !ctn then "┘ " else "  "), false, st.justStarted⟩
    else if i + 1 = endIn && st.inAnn then
      ⟨st.underline ++ (if ctn then "───" else if endIn = 16 then "──" else "───"),
        st.inAnn, st.justStarted⟩
    else if st.inAnn then
      ⟨st.underline ++ "───", st.inAnn, st.justStarted⟩
    else
      ⟨st.underline ++ "   ", st.inAnn, st.justStarted⟩
  let st2 : UnderlineState :=
    if i = 7 && !st1.justStarted then
      ⟨st1.underline ++ (if st1.inAnn then "─" else " "), st1.inAnn, st1.justStarted⟩
    else st1
  ⟨st2.underline, st2.inAnn, false⟩

/-- The underline string built by the 16-position loop of
`Hexdump::print_annotation`, starting from the 9-space offset spacing. -/
def annUnderline (startIn endIn : Nat) (cfp ctn : Bool) : String :=
  ((List.range 16).foldl (underlineStep startIn endIn cfp ctn)
    ⟨"         ", false, false⟩).underline

/-- A run of `n` spaces (the padding loop of `Hexdump::print_annotation`). -/
def spaces (n : Nat) : String :=
  String.mk (List.replicate n ' ')

/-- Everything `Hexdump::print_annotation` (src/main.rs lines 277–306) writes
before the label: the underline, the closing corner appended after the loop
when the annotation ends exactly at position 16, and the padding that aims
the label at the fixed column (`LABEL_COLUMN = 58`, lowered by one when the
corner is appended after the loop). -/
def prefixOfCells (startIn endIn : Nat) (cfp ctn : Bool) : String :=
  let u := annUnderline startIn endIn cfp ctn
  let closing16 := endIn = 16 ∧ ctn = false
  let width := u.data.length
  let target := if closing16 then 57 else 58
  let padding := if width < target then target - width else 0
  u ++ (if closing16 then "┘" else "") ++ spaces padding

/-- `start_in_line` of `Hexdump::print_annotation`. -/
def startInLine (lineOffset : Nat) (a : Annotation) : Nat :=
  if a.offset > lineOffset then a.offset - lineOffset else 0

/-- `end_in_line` of `Hexdump::print_annotation`. -/
def endInLine (lineOffset lineLength : Nat) (a : Annotation) : Nat :=
  if a.offset + a.length < lineOffset + lineLength then a.offset + a.length - lineOffset
  else lineLength

/-- The part of the underline row before the label for an annotation under
the row starting at `lineOffset` holding `lineLength` bytes. -/
def annLinePrefix (lineOffset lineLength : Nat) (a : Annotation) : String :=
  prefixOfCells (startInLine lineOffset a) (endInLine lineOffset lineLength a)
    (decide (a.offset < lineOffset))
    (decide (a.offset + a.length > lineOffset + lineLength))

/-- The full text `Hexdump::print_annotation` writes for one annotation under
one row (without the trailing newline): the label, preceded by one space, is
appended only on the row where the annotation starts. -/
def printAnnotationLine (lineOffset lineLength : Nat) (a : Annotation) : String :=
  if a.offset ≥ lineOffset ∧ a.offset < lineOffset + lineLength then
    annLinePrefix lineOffset lineLength a ++ " " ++ a.label
  else
    annLinePrefix lineOffset lineLength a

/-- The 0-based character column at which the annotation's label begins on
its label row: one past the prefix (the space before the label). -/
def labelColumn (lineOffset lineLength : Nat) (a : Annotation) : Nat :=
  (annLinePrefix lineOffset lineLength a).data.length + 1



/-- Contiguity of an annotation list from a starting cursor: each annotation
starts where the previous one ended (the invariant of the cursor walk in
`build_annotations_from_types`). -/
def contiguousFrom : Nat → List Annotation → Prop
  | _, [] => True
  | c, a :: rest => a.offset = c ∧ contiguousFrom (c + a.length) rest

/-- The two's-complement representative fits in `bits` bits. -/
theorem twosComplement_lt (bits : Nat) (v : Int) : twosComplement bits v < 2 ^ bits := by
  unfold twosComplement
  have hnn := Int.emod_nonneg v (by positivity : ((2:Int) ^ bits) ≠ 0)
  have hlt := Int.emod_lt_of_pos v (by positivity : (0:Int) < 2 ^ bits)
  rw [Int.toNat_lt hnn]
  push_cast
  exact hlt

/-- The two's-complement representative, as an integer, is `v` modulo `2^bits`. -/
theorem twosComplement_cast (bits : Nat) (v : Int) :
    (twosComplement bits v : Int) = v % 2 ^ bits := by
  unfold twosComplement
  have := Int.emod_nonneg v (by positivity : ((2:Int) ^ bits) ≠ 0)
  omega

set_option maxHeartbeats 3200000 in
/-- C4: for every integer data type, every byte order and every value `v` in
the type's range, decoding the native byte encoding of `v` under that byte
order yields exactly the base-10 decimal string of `v`, and `decode` is
deterministic (identical inputs yield identical text). -/
theorem c4_integer_decode_roundtrip :
    ∀ t : DataType, isIntegerType t = true →
    ∀ (bo : ByteOrder) (v : Int), valueInRange t v →
      DataType.decode t (encodeBytes t bo v) bo = .ok (toString v) ∧
      ∀ b1 b2 : List Nat, b1 = b2 → DataType.decode t b1 bo = DataType.decode t b2 bo := by
  intro t hint bo v hv
  refine ⟨?_, fun b1 b2 hb => by rw [hb]⟩
  cases t
  case F32 => simp [isIntegerType] at hint
  case F64 => simp [isIntegerType] at hint
  case U8 =>
    obtain ⟨h0, h1⟩ : 0 ≤ v ∧ v < (2:Int)^8 := by
      simpa [valueInRange, isSignedType, DataType.size] using hv
    obtain ⟨m, rfl⟩ : ∃ m : Nat, v = (m : Int) := ⟨v.toNat, (Int.toNat_of_nonneg h0).symm⟩
    have hm : m < 256 := by exact_mod_cast h1
    have htc : twosComplement 8 (m : Int) = m := by
      have h := twosComplement_cast 8 (m : Int)
      omega
    have hts : toString ((m : Nat) : Int) = toString m := rfl
    cases bo <;>
      simp only [encodeBytes, DataType.size, htc, encodeNatLE, List.reverse_cons,
        List.reverse_nil, List.nil_append, List.cons_append] <;>
      simp only [DataType.decode, DataType.size, List.length_cons, List.length_nil,
        leNat, beNat, List.reverse_cons, List.reverse_nil, List.nil_append,
        List.cons_append, List.getD_cons_zero, List.getD_cons_succ, hts] <;>
      rw [if_neg (by norm_num)] <;>
      exact congrArg Except.ok (congrArg toString (by omega))
  case U16 =>
    obtain ⟨h0, h1⟩ : 0 ≤ v ∧ v < (2:Int)^16 := by
      simpa [valueInRange, isSignedType, DataType.size] using hv
    obtain ⟨m, rfl⟩ : ∃ m : Nat, v = (m : Int) := ⟨v.toNat, (Int.toNat_of_nonneg h0).symm⟩
    have hm : m < 65536 := by exact_mod_cast h1
    have htc : twosComplement 16 (m : Int) = m := by
      have h := twosComplement_cast 16 (m : Int)
      omega
    have hts : toString ((m : Nat) : Int) = toString m := rfl
    cases bo <;>
      simp only [encodeBytes, DataType.size, htc, encodeNatLE, List.reverse_cons,
        List.reverse_nil, List.nil_append, List.cons_append] <;>
      simp only [DataType.decode, DataType.size, List.length_cons, List.length_nil,
        leNat, beNat, List.reverse_cons, List.reverse_nil, List.nil_append,
        List.cons_append, List.getD_cons_zero, List.getD_cons_succ, hts] <;>
      rw [if_neg (by norm_num)] <;>
      exact congrArg Except.ok (congrArg toString (by omega))
  case U32 =>
    obtain ⟨h0, h1⟩ : 0 ≤ v ∧ v < (2:Int)^32 := by
      simpa [valueInRange, isSignedType, DataType.size] using hv
    obtain ⟨m, rfl⟩ : ∃ m : Nat, v = (m : Int) := ⟨v.toNat, (Int.toNat_of_nonneg h0).symm⟩
    have hm : m < 4294967296 := by exact_mod_cast h1
    have htc : twosComplement 32 (m : Int) = m := by
      have h := twosComplement_cast 32 (m : Int)
      omega
    have hts : toString ((m : Nat) : Int) = toString m := rfl
    cases bo <;>
      simp only [encodeBytes, DataType.size, htc, encodeNatLE, List.reverse_cons,
        List.reverse_nil, List.nil_append, List.cons_append] <;>
      simp only [DataType.decode, DataType.size, List.length_cons, List.length_nil,
        leNat, beNat, List.reverse_cons, List.reverse_nil, List.nil_append,
        List.cons_append, List.getD_cons_zero, List.getD_cons_succ, hts] <;>
      rw [if_neg (by norm_num)] <;>
      exact congrArg Except.ok (congrArg toString (by omega))
  case U64 =>
    obtain ⟨h0, h1⟩ : 0 ≤ v ∧ v < (2:Int)^64 := by
      simpa [valueInRange, isSignedType, DataType.size] using hv
    obtain ⟨m, rfl⟩ : ∃ m : Nat, v = (m : Int) := ⟨v.toNat, (Int.toNat_of_nonneg h0).symm⟩
    have hm : m < 18446744073709551616 := by exact_mod_cast h1
    have htc : twosComplement 64 (m : Int) = m := by
      have h := twosComplement_cast 64 (m : Int)
      omega
    have hts : toString ((m : Nat) : Int) = toString m := rfl
    cases bo <;>
      simp only [encodeBytes, DataType.size, htc, encodeNatLE, List.reverse_cons,
        List.reverse_nil, List.nil_append, List.cons_append] <;>
      simp only [DataType.decode, DataType.size, List.length_cons, List.length_nil,
        leNat, beNat, List.reverse_cons, List.reverse_nil, List.nil_append,
        List.cons_append, List.getD_cons_zero, List.getD_cons_succ, hts] <;>
      rw [if_neg (by norm_num)] <;>
      exact congrArg Except.ok (congrArg toString (by omega))
  case I8 =>
    obtain ⟨h0, h1⟩ : -((2:Int)^7) ≤ v ∧ v < (2:Int)^7 := by
      simpa [valueInRange, isSignedType, DataType.size] using hv
    have hlt : twosComplement 8 v < 2 ^ 8 := twosComplement_lt 8 v
    have hcast : (twosComplement 8 v : Int) = v % 2 ^ 8 := twosComplement_cast 8 v
    cases bo <;>
      simp only [encodeBytes, DataType.size, encodeNatLE, List.reverse_cons,
        List.reverse_nil, List.nil_append, List.cons_append] <;>
      simp only [DataType.decode, DataType.size, List.length_cons, List.length_nil,
        leNat, beNat, List.reverse_cons, List.reverse_nil, List.nil_append,
        List.cons_append, List.getD_cons_zero, List.getD_cons_succ] <;>
      rw [if_neg (by norm_num)] <;>
      refine congrArg Except.ok (congrArg toString ?_) <;>
      simp only [sintOf] <;>
      norm_num <;>
      split <;>
      omega
  case I16 =>
    obtain ⟨h0, h1⟩ : -((2:Int)^15) ≤ v ∧ v < (2:Int)^15 := by
      simpa [valueInRange, isSignedType, DataType.size] using hv
    have hlt : twosComplement 16 v < 2 ^ 16 := twosComplement_lt 16 v
    have hcast : (twosComplement 16 v : Int) = v % 2 ^ 16 := twosComplement_cast 16 v
    cases bo <;>
      simp only [encodeBytes, DataType.size, encodeNatLE, List.reverse_cons,
        List.reverse_nil, List.nil_append, List.cons_append] <;>
      simp only [DataType.decode, DataType.size, List.length_cons, List.length_nil,
        leNat, beNat, List.reverse_cons, List.reverse_nil, List.nil_append,
        List.cons_append, List.getD_cons_zero, List.getD_cons_succ] <;>
      rw [if_neg (by norm_num)] <;>
      refine congrArg Except.ok (congrArg toString ?_) <;>
      simp only [sintOf] <;>
      norm_num <;>
      split <;>
      omega
  case I32 =>
    obtain ⟨h0, h1⟩ : -((2:Int)^31) ≤ v ∧ v < (2:Int)^31 := by
      simpa [valueInRange, isSignedType, DataType.size] using hv
    have hlt : twosComplement 32 v < 2 ^ 32 := twosComplement_lt 32 v
    have hcast : (twosComplement 32 v : Int) = v % 2 ^ 32 := twosComplement_cast 32 v
    cases bo <;>
      simp only [encodeBytes, DataType.size, encodeNatLE, List.reverse_cons,
        List.reverse_nil, List.nil_append, List.cons_append] <;>
      simp only [DataType.decode, DataType.size, List.length_cons, List.length_nil,
        leNat, beNat, List.reverse_cons, List.reverse_nil, List.nil_append,
        List.cons_append, List.getD_cons_zero, List.getD_cons_succ] <;>
      rw [if_neg (by norm_num)] <;>
      refine congrArg Except.ok (congrArg toString ?_) <;>
      simp only [sintOf] <;>
      norm_num <;>
      split <;>
      omega
  case I64 =>
    obtain ⟨h0, h1⟩ : -((2:Int)^63) ≤ v ∧ v < (2:Int)^63 := by
      simpa [valueInRange, isSignedType, DataType.size] using hv
    have hlt : twosComplement 64 v < 2 ^ 64 := twosComplement_lt 64 v
    have hcast : (twosComplement 64 v : Int) = v % 2 ^ 64 := twosComplement_cast 64 v
    cases bo <;>
      simp only [encodeBytes, DataType.size, encodeNatLE, List.reverse_cons,
        List.reverse_nil, List.nil_append, List.cons_append] <;>
      simp only [DataType.decode, DataType.size, List.length_cons, List.length_nil,
        leNat, beNat, List.reverse_cons, List.reverse_nil, List.nil_append,
        List.cons_append, List.getD_cons_zero, List.getD_cons_succ] <;>
      rw [if_neg (by norm_num)] <;>
      refine congrArg Except.ok (congrArg toString ?_) <;>
      simp only [sintOf] <;>
      norm_num <;>
      split <;>
      omega


/-- Witness for C4 at the u16 value 4660 under little-endian order. -/
theorem c4_integer_decode_roundtrip_witness :
    isIntegerType DataType.U16 = true ∧ valueInRange DataType.U16 4660 ∧
    DataType.decode DataType.U16 (encodeBytes DataType.U16 ByteOrder.Little 4660)
      ByteOrder.Little = .ok (toString (4660 : Int)) := by
  have hr : valueInRange DataType.U16 4660 := by
    simp only [valueInRange, isSignedType, DataType.size]
    norm_num
  exact ⟨rfl, hr,
    (c4_integer_decode_roundtrip DataType.U16 rfl ByteOrder.Little 4660 hr).1⟩


/-- C1 (code evaluated at the failing input): the compiler of src/main.rs has
no skip-token support; on a 3-byte buffer with tokens [".8", "u16"] it fails
with an unknown-type error and emits no annotation, where the claim (and
tests/skip_test.rs) expect success with one Normal annotation at offset 1 of
length 2. -/
theorem c1_skip_token_rejected :
    buildAnnotationsFromTypes [".8", "u16"] .Little [0xAA, 0xBB, 0xCC] =
      .error "Unknown type: .8" := rfl

/-- C2 (code evaluated at the failing input): on buffer [0x01, 0x02, 0x03]
with tokens ["u32"], the compiler of src/main.rs returns a bare error and no
annotation list at all, where the claim (and tests/error_annotation_test.rs)
expect one Error-kind annotation at offset 0 of length 3 returned together
with the error. -/
theorem c2_scalar_overflow_plain_error :
    buildAnnotationsFromTypes ["u32"] .Little [0x01, 0x02, 0x03] =
      .error "Not enough data: type u32 at offset 0 needs 4 bytes, but only 3 bytes available" := rfl

/-- C3: on buffer [0x34, 0x12] with tokens ["u16:apid"] under little-endian
order the compiler succeeds with exactly one Normal annotation at offset 0,
length 2, label "apid: 4660"; and in general a parsed explicit field name
takes precedence over the type name as the display name and is non-empty. -/
theorem c3_field_name_label :
    buildAnnotationsFromTypes ["u16:apid"] .Little [0x34, 0x12] =
      .ok [⟨0, 2, "apid: 4660", .Normal⟩] ∧
    ∀ s spec, TypeSpec.fromStr s = .ok spec →
      ∀ f, spec.fieldName = some f → spec.displayName = f ∧ f ≠ "" := by
  refine ⟨rfl, ?_⟩
  intro s spec hs f hf
  unfold TypeSpec.fromStr at hs
  cases hsplit : splitAtColon s.data with
  | none =>
    rw [hsplit] at hs
    cases hdt : DataType.fromStr s with
    | ok dt =>
      rw [hdt] at hs
      cases hs
      simp at hf
    | error e =>
      rw [hdt] at hs
      cases hs
  | some p =>
    obtain ⟨tp, fp⟩ := p
    rw [hsplit] at hs
    simp only at hs
    by_cases hemp : fp = []
    · rw [if_pos hemp] at hs
      cases hs
    · rw [if_neg hemp] at hs
      cases hdt : DataType.fromStr (String.mk tp) with
      | ok dt =>
        rw [hdt] at hs
        cases hs
        obtain rfl : f = String.mk fp := by
          simpa using hf.symm
        refine ⟨by simp [TypeSpec.displayName], ?_⟩
        intro hcon
        exact hemp (by simpa using congrArg String.data hcon)
      | error e =>
        rw [hdt] at hs
        cases hs

/-- Witness for C3: the display-name conjunct applied at the concrete token
"u16:apid". -/
theorem c3_witness :
    TypeSpec.fromStr "u16:apid" = .ok ⟨.U16, some "apid"⟩ ∧
    TypeSpec.displayName ⟨.U16, some "apid"⟩ = "apid" ∧ "apid" ≠ "" :=
  ⟨rfl, (c3_field_name_label.2 "u16:apid" ⟨.U16, some "apid"⟩ rfl "apid" rfl)⟩



/-- Counterexample to C9: a zero-length annotation at offset 1 does match
the row-overlap filter of the row [0, 2), so the dump renders an underline
row for it and the output is not unchanged. -/
theorem c9_zero_length_row_match :
    overlapsRow ⟨1, 0, "z", .Normal⟩ 0 2 = true ∧
    lineAnnotations [⟨1, 0, "z", .Normal⟩] 0 2 = [⟨1, 0, "z", .Normal⟩] :=
  ⟨rfl, rfl⟩

/-- C9 amended: a zero-length annotation never styles any byte, and it
matches the row-overlap filter exactly when its offset lies strictly inside
the row, in which case an underline row is emitted for it. -/
theorem c9_zero_length_amended :
    ∀ a : Annotation, a.length = 0 →
      (∀ off, inAnnRange a off = false) ∧
      (∀ rowStart rowEnd,
        (overlapsRow a rowStart rowEnd = true ↔ rowStart < a.offset ∧ a.offset < rowEnd)) := by
  intro a hlen
  constructor
  · intro off
    simp only [inAnnRange, decide_eq_false_iff_not]
    omega
  · intro rs re
    simp only [overlapsRow, decide_eq_true_eq]
    omega

/-- Witness for C9 amended, applied to the zero-length annotation at
offset 1. -/
theorem c9_zero_length_witness :
    inAnnRange ⟨1, 0, "z", .Normal⟩ 1 = false ∧
    (overlapsRow ⟨1, 0, "z", .Normal⟩ 0 2 = true ↔ 0 < 1 ∧ 1 < 2) :=
  ⟨(c9_zero_length_amended ⟨1, 0, "z", .Normal⟩ rfl).1 1,
   (c9_zero_length_amended ⟨1, 0, "z", .Normal⟩ rfl).2 0 2⟩

/-- Every data type's size is 1, 2, 4 or 8 bytes. -/
theorem size_mem_sizes (t : DataType) :
    t.size = 1 ∨ t.size = 2 ∨ t.size = 4 ∨ t.size = 8 := by
  cases t <;> simp [DataType.size]

/-- The cursor-walk invariant of `build_annotations_from_types`: a
successful walk from any starting offset yields a contiguous annotation list
whose lengths are type sizes and which stays inside the buffer. -/
theorem buildAux_ok_invariant :
    ∀ (specs : List String) (bo : ByteOrder) (data : List Nat) (offset : Nat)
      (anns : List Annotation), buildAux specs bo data offset = .ok anns →
      contiguousFrom offset anns ∧
      ∀ a ∈ anns, (a.length = 1 ∨ a.length = 2 ∨ a.length = 4 ∨ a.length = 8) ∧
        a.offset + a.length ≤ data.length := by
  intro specs
  induction specs with
  | nil =>
    intro bo data offset anns h
    simp only [buildAux] at h
    cases h
    exact ⟨trivial, by intro a ha; cases ha⟩
  | cons sStr rest ih =>
    intro bo data offset anns h
    simp only [buildAux] at h
    cases hspec : TypeSpec.fromStr sStr with
    | error e =>
      rw [hspec] at h
      cases h
    | ok spec =>
      rw [hspec] at h
      simp only at h
      by_cases hover : offset + spec.dataType.size > data.length
      · rw [if_pos hover] at h
        cases h
      · rw [if_neg hover] at h
        cases hdec : spec.dataType.decode ((data.drop offset).take spec.dataType.size) bo with
        | error e =>
          rw [hdec] at h
          cases h
        | ok value =>
          rw [hdec] at h
          simp only at h
          cases hrec : buildAux rest bo data (offset + spec.dataType.size) with
          | error e =>
            rw [hrec] at h
            cases h
          | ok anns2 =>
            rw [hrec] at h
            cases h
            obtain ⟨hc, hall⟩ := ih bo data (offset + spec.dataType.size) anns2 hrec
            refine ⟨⟨rfl, hc⟩, ?_⟩
            intro a ha
            cases ha with
            | head =>
              exact ⟨size_mem_sizes spec.dataType, by simp only [ Annotation.new]; omega⟩
            | tail _ hmem => exact hall a hmem

/-- C10: whenever `build_annotations_from_types` succeeds, the annotation
list is contiguous from cursor 0 (each annotation starts where the previous
ended), every length is a type size (1, 2, 4 or 8), and every annotation
ends within the buffer. -/
theorem c10_build_contiguous :
    ∀ (specs : List String) (bo : ByteOrder) (data : List Nat) (anns : List Annotation),
      buildAnnotationsFromTypes specs bo data = .ok anns →
      contiguousFrom 0 anns ∧
      ∀ a ∈ anns, (a.length = 1 ∨ a.length = 2 ∨ a.length = 4 ∨ a.length = 8) ∧
        a.offset + a.length ≤ data.length := by
  intro specs bo data anns h
  exact buildAux_ok_invariant specs bo data 0 anns h

/-- Witness for C10 at tokens ["u8", "u16"] on a 3-byte buffer. -/
theorem c10_build_contiguous_witness :
    buildAnnotationsFromTypes ["u8", "u16"] .Little [5, 6, 7] =
      .ok [⟨0, 1, "u8: 5", .Normal⟩, ⟨1, 2, "u16: 1798", .Normal⟩] ∧
    contiguousFrom 0 [⟨0, 1, "u8: 5", .Normal⟩, ⟨1, 2, "u16: 1798", .Normal⟩] ∧
    ∀ a ∈ [(⟨0, 1, "u8: 5", .Normal⟩ : Annotation), ⟨1, 2, "u16: 1798", .Normal⟩],
      (a.length = 1 ∨ a.length = 2 ∨ a.length = 4 ∨ a.length = 8) ∧
      a.offset + a.length ≤ 3 :=
  ⟨rfl, c10_build_contiguous ["u8", "u16"] .Little [5, 6, 7] _ rfl⟩



/-- Counterexample to C7: byte 1 lies in both a Normal annotation's range
(inserted first) and an Error annotation's range, yet
`get_byte_annotation_kind` styles it Normal — first match in insertion
order, not Error-over-Normal precedence. -/
theorem c7_error_precedence_counterexample :
    inAnnRange ⟨0, 2, "n", .Normal⟩ 1 = true ∧
    inAnnRange ⟨1, 1, "e", .Error⟩ 1 = true ∧
    getByteAnnotationKind [⟨0, 2, "n", .Normal⟩, ⟨1, 1, "e", .Error⟩] 1 =
      some .Normal ∧
    some AnnotationKind.Normal ≠ some AnnotationKind.Error := by
  refine ⟨rfl, rfl, rfl, by simp⟩

/-- C7 amended: a byte is styled iff it falls inside some annotation's
half-open range (both for `is_byte_annotated` and for
`get_byte_annotation_kind`), and the style used is the kind of the first
annotation in insertion order whose range holds the byte. -/
theorem c7_first_match_styling :
    ∀ (anns : List Annotation) (off : Nat),
      (isByteAnnotated anns off = true ↔
        ∃ a ∈ anns, a.offset ≤ off ∧ off < a.offset + a.length) ∧
      ((getByteAnnotationKind anns off).isSome = true ↔
        ∃ a ∈ anns, a.offset ≤ off ∧ off < a.offset + a.length) ∧
      (∀ k, getByteAnnotationKind anns off = some k →
        ∃ l1 a l2, anns = l1 ++ a :: l2 ∧ inAnnRange a off = true ∧ a.kind = k ∧
          ∀ b ∈ l1, inAnnRange b off = false) := by
  intro anns off
  refine ⟨?_, ?_, ?_⟩
  · simp [isByteAnnotated, inAnnRange, List.any_eq_true]
  · simp [getByteAnnotationKind, List.find?_isSome, inAnnRange]
  · induction anns with
    | nil => intro k h; simp [getByteAnnotationKind] at h
    | cons b bs ih =>
      intro k h
      cases hb : inAnnRange b off with
      | true =>
        have hbk : b.kind = k := by
          simpa [getByteAnnotationKind, List.find?, hb] using h
        exact ⟨[], b, bs, rfl, hb, hbk, by intro x hx; cases hx⟩
      | false =>
        have h2 : getByteAnnotationKind bs off = some k := by
          simpa [getByteAnnotationKind, List.find?, hb] using h
        obtain ⟨l1, a, l2, heq, hr, hk, hprev⟩ := ih k h2
        refine ⟨b :: l1, a, l2, by rw [heq]; rfl, hr, hk, ?_⟩
        intro x hx
        cases hx with
        | head => exact hb
        | tail _ hmem => exact hprev x hmem

/-- Witness for C7 amended at a singleton annotation list. -/
theorem c7_first_match_styling_witness :
    (isByteAnnotated [⟨0, 2, "n", .Normal⟩] 1 = true ↔
      ∃ a ∈ [(⟨0, 2, "n", .Normal⟩ : Annotation)], a.offset ≤ 1 ∧ 1 < a.offset + a.length) ∧
    ∃ l1 a l2, [(⟨0, 2, "n", .Normal⟩ : Annotation)] = l1 ++ a :: l2 ∧
      inAnnRange a 1 = true ∧ a.kind = AnnotationKind.Normal ∧
      ∀ b ∈ l1, inAnnRange b 1 = false :=
  ⟨(c7_first_match_styling [⟨0, 2, "n", .Normal⟩] 1).1,
   (c7_first_match_styling [⟨0, 2, "n", .Normal⟩] 1).2.2 AnnotationKind.Normal rfl⟩

/-- Membership is preserved by stable insertion. -/
theorem mem_insertByOffset (a b : Annotation) (l : List Annotation) :
    b ∈ insertByOffset a l ↔ b = a ∨ b ∈ l := by
  induction l with
  | nil => simp [insertByOffset]
  | cons c cs ih =>
    simp only [insertByOffset]
    split
    · simp [List.mem_cons]
    · simp only [List.mem_cons, ih]
      tauto

/-- Stable insertion preserves sortedness by offset. -/
theorem pairwise_insertByOffset (a : Annotation) (l : List Annotation)
    (h : l.Pairwise (fun x y => x.offset ≤ y.offset)) :
    (insertByOffset a l).Pairwise (fun x y => x.offset ≤ y.offset) := by
  induction l with
  | nil => simp [insertByOffset]
  | cons c cs ih =>
    rw [List.pairwise_cons] at h
    obtain ⟨hc, hcs⟩ := h
    simp only [insertByOffset]
    split
    · rename_i hle
      rw [List.pairwise_cons]
      refine ⟨?_, by rw [List.pairwise_cons]; exact ⟨hc, hcs⟩⟩
      intro x hx
      cases hx with
      | head => exact hle
      | tail _ hmem => exact le_trans hle (hc x hmem)
    · rename_i hgt
      rw [List.pairwise_cons]
      refine ⟨?_, ih hcs⟩
      intro x hx
      rw [mem_insertByOffset] at hx
      cases hx with
      | inl he => subst he; omega
      | inr hmem => exact hc x hmem

/-- Stable insertion puts an element in front of its own offset class and
leaves every other offset class unchanged. -/
theorem filter_insertByOffset (a : Annotation) (l : List Annotation) (k : Nat) :
    (insertByOffset a l).filter (fun x => x.offset == k) =
      if a.offset = k then a :: l.filter (fun x => x.offset == k)
      else l.filter (fun x => x.offset == k) := by
  induction l with
  | nil => by_cases hk : a.offset = k <;> simp [insertByOffset, List.filter_cons, hk]
  | cons c cs ih =>
    simp only [insertByOffset]
    split
    · rename_i hle
      by_cases hk : a.offset = k <;> simp [List.filter_cons, hk]
    · rename_i hgt
      have hca : c.offset < a.offset := by omega
      by_cases hk : a.offset = k
      · have hck : ¬ c.offset = k := by omega
        simp [List.filter_cons, hck, hk, ih]
      · by_cases hck : c.offset = k <;> simp [List.filter_cons, hck, hk, ih]

/-- The stable sort yields a list sorted by offset. -/
theorem sortByOffset_pairwise (l : List Annotation) :
    (sortByOffset l).Pairwise (fun x y => x.offset ≤ y.offset) := by
  induction l with
  | nil => simp [sortByOffset]
  | cons a l ih => exact pairwise_insertByOffset a (sortByOffset l) ih

/-- The stable sort preserves membership. -/
theorem sortByOffset_mem (l : List Annotation) (b : Annotation) :
    b ∈ sortByOffset l ↔ b ∈ l := by
  induction l with
  | nil => simp [sortByOffset]
  | cons a l ih =>
    simp only [sortByOffset, mem_insertByOffset, List.mem_cons, ih]

/-- Stability: the stable sort keeps each offset class in input order. -/
theorem sortByOffset_filter (l : List Annotation) (k : Nat) :
    (sortByOffset l).filter (fun x => x.offset == k) =
      l.filter (fun x => x.offset == k) := by
  induction l with
  | nil => simp [sortByOffset]
  | cons a l ih =>
    simp only [sortByOffset, filter_insertByOffset, ih]
    by_cases hk : a.offset = k <;> simp [List.filter_cons, hk]

/-- C8: for every annotation list and row, the renderer selects exactly
the annotations overlapping the row (offset < row_end and offset + length >
row_start) and emits them sorted by ascending offset with ties kept in
insertion order (each offset class is exactly the filtered input, in input
order). -/
theorem c8_row_selection_sorted :
    ∀ (anns : List Annotation) (rowStart rowEnd : Nat),
      (lineAnnotations anns rowStart rowEnd).Pairwise (fun x y => x.offset ≤ y.offset) ∧
      (∀ a, a ∈ lineAnnotations anns rowStart rowEnd ↔
        a ∈ anns ∧ a.offset < rowEnd ∧ rowStart < a.offset + a.length) ∧
      (∀ k, (lineAnnotations anns rowStart rowEnd).filter (fun x => x.offset == k) =
        (anns.filter (fun x => overlapsRow x rowStart rowEnd)).filter
          (fun x => x.offset == k)) := by
  intro anns rs re
  refine ⟨sortByOffset_pairwise _, ?_, fun k => sortByOffset_filter _ k⟩
  intro a
  rw [lineAnnotations, sortByOffset_mem, List.mem_filter]
  simp [overlapsRow]

/-- Witness for C8 on a two-annotation list added out of offset order. -/
theorem c8_row_selection_sorted_witness :
    ((lineAnnotations [⟨4, 1, "b", .Normal⟩, ⟨0, 2, "a", .Normal⟩] 0 16).Pairwise
      (fun x y => x.offset ≤ y.offset)) ∧
    ((⟨0, 2, "a", .Normal⟩ : Annotation) ∈
        lineAnnotations [⟨4, 1, "b", .Normal⟩, ⟨0, 2, "a", .Normal⟩] 0 16 ↔
      (⟨0, 2, "a", .Normal⟩ : Annotation) ∈
          [(⟨4, 1, "b", .Normal⟩ : Annotation), ⟨0, 2, "a", .Normal⟩] ∧
        0 < 16 ∧ 0 < 0 + 2) :=
  ⟨(c8_row_selection_sorted [⟨4, 1, "b", .Normal⟩, ⟨0, 2, "a", .Normal⟩] 0 16).1,
   (c8_row_selection_sorted [⟨4, 1, "b", .Normal⟩, ⟨0, 2, "a", .Normal⟩] 0 16).2.1 _⟩



set_option maxRecDepth 10000 in
/-- The label column of an underline row that starts on this row, over the
whole bounded parameter space of the 16-position loop: column 59 except for
the single-byte-at-position-15 shape, which lands at 60. -/
theorem labelColumn_cells :
    ∀ s, s < 16 → ∀ e, e < 17 → s < e → ∀ ctn : Bool,
      (prefixOfCells s e false ctn).data.length + 1 =
        if s = 15 ∧ e = 16 ∧ ctn = false then 60 else 59 := by decide

set_option maxRecDepth 10000 in
/-- An underline for an annotation that starts on this row and continues
to the next row holds no closing corner. -/
theorem noClose_cells :
    ∀ s, s < 16 → ∀ e, e < 17 → s < e →
      '┘' ∉ (prefixOfCells s e false true).data := by decide

set_option maxRecDepth 10000 in
/-- An underline for an annotation continuing from a previous row begins
with a plain horizontal run after the address spacing, has no opening
corner, and has a closing corner exactly when the annotation does not
continue past this row. -/
theorem cont_cells :
    ∀ e, e < 17 → 0 < e → ∀ ctn : Bool,
      '└' ∉ (prefixOfCells 0 e true ctn).data ∧
      ('┘' ∈ (prefixOfCells 0 e true ctn).data ↔ ctn = false) ∧
      (prefixOfCells 0 e true ctn).data.take 12 = "         ───".data := by decide

/-- Counterexample to C5: on one full 16-byte row, a single-byte
annotation at offset 0 gets its label at column 59, while a single-byte
annotation at offset 15 (last byte of the row) gets its label at column 60 —
the columns differ within one dump. -/
theorem c5_alignment_counterexample :
    labelColumn 0 16 ⟨0, 1, "a", .Normal⟩ = 59 ∧
    labelColumn 0 16 ⟨15, 1, "b", .Normal⟩ = 60 := ⟨rfl, rfl⟩

/-- C5 amended: on the row where an annotation starts, its label begins at
the fixed character column 59, except for a single-byte annotation occupying
byte index 15 of a full 16-byte row, whose label begins one column later at
60. -/
theorem c5_label_column_amended :
    ∀ (lo ll : Nat) (a : Annotation), 0 < ll → ll ≤ 16 → 0 < a.length →
      lo ≤ a.offset → a.offset < lo + ll →
      labelColumn lo ll a =
        if ll = 16 ∧ a.offset = lo + 15 ∧ a.length = 1 then 60 else 59 := by
  intro lo ll a hll hll16 hlen hlo hlt
  have hcfp : decide (a.offset < lo) = false := by
    simp only [decide_eq_false_iff_not]
    omega
  have hsv : startInLine lo a = a.offset - lo := by
    unfold startInLine
    split <;> omega
  have hor : (endInLine lo ll a = a.offset + a.length - lo ∧ a.offset + a.length < lo + ll) ∨
      (endInLine lo ll a = ll ∧ lo + ll ≤ a.offset + a.length) := by
    unfold endInLine
    split
    · rename_i hc
      exact Or.inl ⟨rfl, hc⟩
    · rename_i hc
      exact Or.inr ⟨rfl, by omega⟩
  have hs16 : startInLine lo a < 16 := by omega
  have he17 : endInLine lo ll a < 17 := by rcases hor with ⟨h1, h2⟩ | ⟨h1, h2⟩ <;> omega
  have hse : startInLine lo a < endInLine lo ll a := by
    rcases hor with ⟨h1, h2⟩ | ⟨h1, h2⟩ <;> omega
  unfold labelColumn annLinePrefix
  rw [hcfp]
  cases hctn : decide (a.offset + a.length > lo + ll) with
  | true =>
    have hp : lo + ll < a.offset + a.length := by
      have := of_decide_eq_true hctn
      omega
    rw [labelColumn_cells _ hs16 _ he17 hse true]
    rw [if_neg (by simp), if_neg (by intro hc; omega)]
  | false =>
    have hp : a.offset + a.length ≤ lo + ll := by
      have := of_decide_eq_false hctn
      omega
    rw [labelColumn_cells _ hs16 _ he17 hse false]
    by_cases hexc : ll = 16 ∧ a.offset = lo + 15 ∧ a.length = 1
    · rw [if_pos ⟨by omega, by rcases hor with ⟨h1, h2⟩ | ⟨h1, h2⟩ <;> omega, rfl⟩,
        if_pos hexc]
    · rw [if_neg ?_, if_neg hexc]
      intro hc
      obtain ⟨hc1, hc2, _⟩ := hc
      rcases hor with ⟨h1, h2⟩ | ⟨h1, h2⟩ <;> exact hexc ⟨by omega, by omega, by omega⟩

/-- Witness for C5 amended at an ordinary two-byte annotation. -/
theorem c5_label_column_witness :
    labelColumn 0 16 ⟨1, 2, "x", .Normal⟩ = 59 := by
  have h := c5_label_column_amended 0 16 ⟨1, 2, "x", .Normal⟩ (by decide) (by decide)
    (by decide) (by decide) (by decide)
  simpa using h

/-- C6: an annotation spanning a 16-byte row boundary renders on its first
row with no closing corner and with the label, and on a continuation row
with a plain horizontal run (no opening corner), no label text, and a
closing corner exactly when it ends on that row. -/
theorem c6_row_spanning_rendering :
    ∀ (lo ll : Nat) (a : Annotation), 0 < ll → ll ≤ 16 →
      ((lo ≤ a.offset → a.offset < lo + ll → lo + ll < a.offset + a.length →
        '┘' ∉ (annLinePrefix lo ll a).data ∧
        printAnnotationLine lo ll a = annLinePrefix lo ll a ++ " " ++ a.label) ∧
      (a.offset < lo → lo < a.offset + a.length →
        '└' ∉ (annLinePrefix lo ll a).data ∧
        (annLinePrefix lo ll a).data.take 12 = "         ───".data ∧
        printAnnotationLine lo ll a = annLinePrefix lo ll a ∧
        ('┘' ∈ (annLinePrefix lo ll a).data ↔ a.offset + a.length ≤ lo + ll))) := by
  intro lo ll a hll hll16
  constructor
  · intro hlo hlt hctn
    have hcfp : decide (a.offset < lo) = false := by
      simp only [decide_eq_false_iff_not]
      omega
    have hctnT : decide (a.offset + a.length > lo + ll) = true := by
      simp only [decide_eq_true_eq]
      omega
    have hsv : startInLine lo a = a.offset - lo := by
      unfold startInLine
      split <;> omega
    have hev : endInLine lo ll a = ll := by
      unfold endInLine
      split <;> omega
    have hs16 : startInLine lo a < 16 := by omega
    have he17 : endInLine lo ll a < 17 := by omega
    have hse : startInLine lo a < endInLine lo ll a := by omega
    have hpre : annLinePrefix lo ll a =
        prefixOfCells (startInLine lo a) (endInLine lo ll a) false true := by
      unfold annLinePrefix
      rw [hcfp, hctnT]
    refine ⟨?_, ?_⟩
    · rw [hpre]
      exact noClose_cells _ hs16 _ he17 hse
    · unfold printAnnotationLine
      rw [if_pos ⟨hlo, hlt⟩]
  · intro hlt2 hend
    have hcfpT : decide (a.offset < lo) = true := by
      simp only [decide_eq_true_eq]
      omega
    have hs0 : startInLine lo a = 0 := by
      unfold startInLine
      split <;> omega
    have hepos : 0 < endInLine lo ll a ∧ endInLine lo ll a < 17 := by
      unfold endInLine
      split <;> omega
    have hpre : annLinePrefix lo ll a =
        prefixOfCells 0 (endInLine lo ll a) true
          (decide (a.offset + a.length > lo + ll)) := by
      unfold annLinePrefix
      rw [hcfpT, hs0]
    have hkey := cont_cells (endInLine lo ll a) hepos.2 hepos.1
      (decide (a.offset + a.length > lo + ll))
    refine ⟨?_, ?_, ?_, ?_⟩
    · rw [hpre]
      exact hkey.1
    · rw [hpre]
      exact hkey.2.2
    · unfold printAnnotationLine
      rw [if_neg (by intro hc; omega)]
    · rw [hpre, hkey.2.1]
      simp only [decide_eq_false_iff_not]
      omega

/-- Witness for C6 at the annotation of offsets 14–17 over rows [0, 16)
and [16, 32). -/
theorem c6_row_spanning_witness :
    ('┘' ∉ (annLinePrefix 0 16 ⟨14, 4, "d", .Normal⟩).data ∧
     printAnnotationLine 0 16 ⟨14, 4, "d", .Normal⟩ =
       annLinePrefix 0 16 ⟨14, 4, "d", .Normal⟩ ++ " " ++ "d") ∧
    ('└' ∉ (annLinePrefix 16 16 ⟨14, 4, "d", .Normal⟩).data ∧
     (annLinePrefix 16 16 ⟨14, 4, "d", .Normal⟩).data.take 12 = "         ───".data ∧
     printAnnotationLine 16 16 ⟨14, 4, "d", .Normal⟩ = annLinePrefix 16 16 ⟨14, 4, "d", .Normal⟩ ∧
     ('┘' ∈ (annLinePrefix 16 16 ⟨14, 4, "d", .Normal⟩).data ↔ 14 + 4 ≤ 16 + 16)) :=
  ⟨(c6_row_spanning_rendering 0 16 ⟨14, 4, "d", .Normal⟩ (by decide) (by decide)).1
      (by decide) (by decide) (by decide),
   (c6_row_spanning_rendering 16 16 ⟨14, 4, "d", .Normal⟩ (by decide) (by decide)).2
      (by decide) (by decide)⟩

end Anno
